import Mathlib

/-!
# getit / ghdir : selective fetch and atomic materialization

A shallow embedding of `source-code/main.go` (and, where it differs, of
`source-code/cmd/root.go`) together with the properties of its URL
locator, strategy selector, extraction loop, atomic materializer and
change cache.

Conventions of the embedding

* Go strings are byte sequences.  The only byte the program inspects is
  `/`, which is a single byte in UTF-8, so `List Char` is a faithful
  carrier (`Str`).
* `os.Exit(1)` is an explicit outcome; nothing after it is executed.
* Everything the run observes from outside (HTTP responses, the archive,
  the wall clock, the random suffix of the temporary directory, and
  whether an operating-system call is allowed to succeed) is collected
  in `World`.
* The working directory is an explicit tree (`Dir`).  The name `..` stands
  for the parent directory: it always exists, and what the run creates
  through it is kept under that name, so a path such as `../x` is followed
  element by element.  The link from the parent back into the working
  directory is not followed.  Absolute paths are outside the modelled
  state; the run builds none.
-/

namespace Getit

/-! ## Strings (package `strings`) -/

/-- Carrier of Go strings. -/
abbrev Str := List Char

/-- The function `strings.Split(s, "/")`: never empty, one more element than slashes. -/
def stringsSplit : Str → List Str
  | [] => [[]]
  | c :: cs =>
    if c = '/' then [] :: stringsSplit cs
    else
      match stringsSplit cs with
      | [] => [[c]]
      | s :: ss => (c :: s) :: ss

/-- The function `strings.Join(xs, "/")`. -/
def stringsJoin : List Str → Str
  | [] => []
  | [s] => s
  | s :: t :: r => s ++ '/' :: stringsJoin (t :: r)

/-- The function `strings.Count(s, "/")`. -/
def stringsCount (s : Str) : Nat := s.count '/'

/-- The function `strings.Trim(s, "/")`: all leading and trailing slashes removed. -/
def stringsTrim (s : Str) : Str :=
  ((s.dropWhile (fun c => c = '/')).reverse.dropWhile (fun c => c = '/')).reverse

/-- The test `strings.ToLower(strings.TrimSpace(input)) == "y"`. -/
def confirms (input : Str) : Bool :=
  (((input.dropWhile Char.isWhitespace).reverse.dropWhile Char.isWhitespace).reverse.map
    Char.toLower) = ['y']

/-! ## Paths (package `path/filepath`, Unix) -/

/-- One step of `filepath.Clean` on a path element; the stack holds the
elements written so far, last one first. -/
def cleanStep (rooted : Bool) (stack : List Str) (seg : Str) : List Str :=
  if seg = [] ∨ seg = ['.'] then stack
  else if seg = ['.', '.'] then
    match stack with
    | [] => if rooted then [] else [seg]
    | top :: below => if top = ['.', '.'] then seg :: stack else below
  else seg :: stack

/-- The elements of the cleaned path, first one first. -/
def cleanSegs (p : Str) : List Str :=
  ((stringsSplit p).foldl (cleanStep (p.head? = some '/')) []).reverse

/-- The function `filepath.Clean`: empty and `.` elements are dropped, an inner
`..` removes the element before it, `..` at the start of a rooted path is
dropped, and the empty result is `.`. -/
def filepathClean (p : Str) : Str :=
  if p.head? = some '/' then '/' :: stringsJoin (cleanSegs p)
  else if cleanSegs p = [] then ['.']
  else stringsJoin (cleanSegs p)

/-- The function `filepath.Join`: leading empty elements are ignored, the rest
is joined with `/` and cleaned; all elements empty gives the empty string. -/
def filepathJoin : List Str → Str
  | [] => []
  | e :: es => if e = [] then filepathJoin es else filepathClean (stringsJoin (e :: es))

/-- The function `filepath.Dir`: everything up to the last slash, cleaned. -/
def filepathDir (p : Str) : Str :=
  filepathClean (p.reverse.dropWhile (fun c => c ≠ '/')).reverse

/-- A path element that `filepath.Clean` copies as it is: not empty, without a slash,
neither `.` nor `..`. -/
def ordinary (s : Str) : Prop :=
  s ≠ [] ∧ '/' ∉ s ∧ s ≠ ['.'] ∧ s ≠ ['.', '.']

instance (s : Str) : Decidable (ordinary s) := by
  unfold ordinary
  infer_instance

/-- Whether the path `p` is the directory `root` or lies below it, both taken relative to
the working directory and compared after cleaning: the elements of `root` are
a beginning of those of `p`, and what follows does not climb with `..`. -/
def withinRoot (root p : Str) : Bool :=
  (cleanSegs root).isPrefixOf (cleanSegs p) &&
    decide (((cleanSegs p).drop (cleanSegs root).length).head? ≠ some ['.', '.'])

/-! ## Repository locator -/

/-- The four results of `parseGitHubURL`. -/
structure FetchTarget where
  user : Str
  repo : Str
  branch : Str
  folder : Str
  deriving DecidableEq, Repr

/-- The `for i, p := range parts` loop of `parseGitHubURL`, on the segments from
position `i` on: the first `tree` that has a successor yields the branch and
the folder. -/
def treeScan : List Str → Option (Str × Str)
  | [] => none
  | [_] => none
  | p :: b :: more =>
    if p = "tree".toList then some (b, if more = [] then [] else stringsJoin more)
    else treeScan (b :: more)

/-- The function `parseGitHubURL` of `main.go` (the one of `cmd/root.go` has the same
text), on the `Path` component that `url.Parse` extracts from the argument.
`none` is the `os.Exit(1)` after "Nieprawidłowy URL GitHub". -/
def parseGitHubURL (path : Str) : Option FetchTarget :=
  let parts := stringsSplit (stringsTrim path)
  if parts.length < 2 then none
  else
    match parts with
    | user :: repo :: _ =>
      match treeScan parts with
      | some (branch, folder) => some ⟨user, repo, branch, folder⟩
      | none => some ⟨user, repo, "main".toList, []⟩
    | _ => none

/-- The function `calculateStrip` of `main.go`. -/
def calculateStrip (_repo _branch folder : Str) : Nat :=
  1 + stringsCount folder

/-- The function `calculateStrip` of `cmd/root.go`. -/
def Cmd.calculateStrip (repo branch folder : Str) : Nat :=
  let pre := repo ++ "-".toList ++ branch
  let pre := if folder ≠ [] then pre ++ "/".toList ++ folder else pre
  stringsCount pre

/-- The lines `extractStrip := strip` and `if atomic { extractStrip++ }` of `run`, with
`strip := calculateStrip(repo, branch, folder)` and `atomic := folder != ""`. -/
def extractStrip (repo branch folder : Str) : Nat :=
  if folder ≠ [] then calculateStrip repo branch folder + 1
  else calculateStrip repo branch folder

/-- The function `getLastFolder`. -/
def getLastFolder (folder : Str) : Str :=
  if folder = [] then ['.']
  else ((stringsSplit folder).getLast?).getD []

/-! ## Retrieval strategy -/

/-- The two ways of fetching. -/
inductive Strategy where
  | FullDownload
  | SparseCheckout
  deriving DecidableEq, Repr

/-- The assignment `useSparse := folder != "" && contentLength > 500*1024*1024`. -/
def useSparse (folder : Str) (contentLength : Int) : Bool :=
  decide (folder ≠ []) && decide (contentLength > 500 * 1024 * 1024)

/-- The constant `largeThreshold`. -/
def largeThreshold : Int := 2 * 1024 * 1024 * 1024

/-! ## The working directory as a tree -/

/-- A file with its mode and bytes, or a directory with its named children. -/
inductive Tree where
  | file (mode : Nat) (data : Str)
  | dir (children : List (Str × Tree))

/-- The children of a directory; the working directory is one. -/
abbrev Dir := List (Str × Tree)

/-- The child of that name. -/
def Dir.child : Dir → Str → Option Tree
  | [], _ => none
  | (k, t) :: r, n => if k = n then some t else Dir.child r n

/-- The directory without the child of that name. -/
def Dir.unset : Dir → Str → Dir
  | [], _ => []
  | (k, t) :: r, n => if k = n then Dir.unset r n else (k, t) :: Dir.unset r n

/-- The directory with that child put or replaced. -/
def Dir.set (d : Dir) (n : Str) (t : Tree) : Dir :=
  (n, t) :: d.unset n

/-- Whether a node is a directory. -/
def Tree.isDir : Tree → Bool
  | Tree.file _ _ => false
  | Tree.dir _ => true

/-- What a directory holds under a name when a path is followed: its child of that
name, except that `..` is always a directory (the parent), holding what has
been recorded under it. -/
def Dir.entry (d : Dir) (n : Str) : Option Tree :=
  if n = ['.', '.'] then
    match d.child n with
    | some (Tree.dir up) => some (Tree.dir up)
    | _ => some (Tree.dir [])
  else d.child n

/-- The node at a path of names below a directory. -/
def lookupPath : List Str → Dir → Option Tree
  | [], d => some (Tree.dir d)
  | n :: p, d =>
    match d.entry n with
    | none => none
    | some (Tree.file m x) => if p = [] then some (Tree.file m x) else none
    | some (Tree.dir sub) => lookupPath p sub

/-- The directory without the node at the path (and everything below it). -/
def removePath : List Str → Dir → Dir
  | [], d => d
  | n :: p, d =>
    if p = [] then d.unset n
    else
      match d.entry n with
      | some (Tree.dir sub) => d.set n (Tree.dir (removePath p sub))
      | _ => d

/-- The directory with a node placed at the path; the parent has to be a directory. -/
def insertAt : List Str → Tree → Dir → Option Dir
  | [], _, _ => none
  | n :: p, t, d =>
    if p = [] then some (d.set n t)
    else
      match d.entry n with
      | some (Tree.dir sub) => (insertAt p t sub).map (fun x => d.set n (Tree.dir x))
      | _ => none

/-- The effect of `os.MkdirAll` on a path of names: missing directories are created;
a file on the way is an error. -/
def mkdirAllPath : List Str → Dir → Option Dir
  | [], d => some d
  | n :: p, d =>
    match d.entry n with
    | none => (mkdirAllPath p []).map (fun x => d.set n (Tree.dir x))
    | some (Tree.dir sub) => (mkdirAllPath p sub).map (fun x => d.set n (Tree.dir x))
    | some (Tree.file _ _) => none

/-- The effect of `os.OpenFile(p, O_CREATE|O_WRONLY|O_TRUNC, mode)` followed by the copy of
the entry and `Close`: the parent has to be a directory and the name must not be
one; an existing file keeps its mode. -/
def writeFilePath : List Str → Nat → Str → Dir → Option Dir
  | [], _, _, _ => none
  | n :: p, mode, data, d =>
    if p = [] then
      match d.entry n with
      | none => some (d.set n (Tree.file mode data))
      | some (Tree.file m _) => some (d.set n (Tree.file m data))
      | some (Tree.dir _) => none
    else
      match d.entry n with
      | some (Tree.dir sub) => (writeFilePath p mode data sub).map (fun x => d.set n (Tree.dir x))
      | _ => none

/-- The effect of `os.Rename` on paths of names: the source has to exist, an existing
directory is never replaced, a file is replaced by a file only, a directory
does not move below itself, and neither the working directory nor one of its
ancestors (a path of `..` only) can be renamed from inside. -/
def renamePath (src dst : List Str) (d : Dir) : Option Dir :=
  if src.all (fun s => decide (s = ['.', '.'])) = true ∨ dst = [] ∨ src <+: dst then none
  else
    match lookupPath src d with
    | none => none
    | some node =>
      match lookupPath dst d with
      | some (Tree.dir _) => none
      | some (Tree.file _ _) => if node.isDir then none else insertAt dst node (removePath src d)
      | none => insertAt dst node (removePath src d)

mutual
/-- Number of nodes of a tree, the root included. -/
def Tree.nodes : Tree → Nat
  | Tree.file _ _ => 1
  | Tree.dir cs => 1 + nodesOfChildren cs
/-- Number of nodes below a directory. -/
def nodesOfChildren : List (Str × Tree) → Nat
  | [] => 0
  | (_, t) :: r => Tree.nodes t + nodesOfChildren r
end

/-- The names a relative path string leads through, starting at the working
directory: the elements of the cleaned path (`..` elements can only come
first).  The empty string names nothing; absolute paths are outside the
modelled state. -/
def resolve (p : Str) : Option (List Str) :=
  if p = [] ∨ p.head? = some '/' then none
  else some (cleanSegs p)

/-! ## Operating-system calls

Each call that can fail for reasons the tree does not record takes a flag:
`true` lets it succeed when the tree allows it, `false` makes it fail and
leave the tree as it is. -/

/-- The test `_, err := os.Stat(p); err == nil`. -/
def osStat (fs : Dir) (p : Str) : Bool :=
  match resolve p with
  | some segs => (lookupPath segs fs).isSome
  | none => false

/-- The call `os.Rename(src, dst)`: `none` is an error. -/
def osRename (ok : Bool) (fs : Dir) (src dst : Str) : Option Dir :=
  if ok then
    match resolve src, resolve dst with
    | some s, some t => renamePath s t fs
    | _, _ => none
  else none

/-- The call `os.RemoveAll(p)`: the state after it and whether it returned `nil`.
A missing path and the empty path are not errors; the working directory
itself is. -/
def osRemoveAll (ok : Bool) (fs : Dir) (p : Str) : Dir × Bool :=
  if p = [] then (fs, true)
  else if ok then
    match resolve p with
    | some [] => (fs, false)
    | some segs => (removePath segs fs, true)
    | none => (fs, false)
  else (fs, false)

/-- The call `os.MkdirAll(p, 0755)` with its error ignored, as every caller does. -/
def osMkdirAll (fs : Dir) (p : Str) : Dir :=
  match resolve p with
  | some segs => (mkdirAllPath segs fs).getD fs
  | none => fs

/-- The calls `os.OpenFile(p, O_CREATE|O_WRONLY|O_TRUNC, mode)`, `io.Copy`, `Close`:
`none` is the error of `OpenFile`. -/
def osWriteFile (fs : Dir) (p : Str) (mode : Nat) (data : Str) : Option Dir :=
  match resolve p with
  | some segs => writeFilePath segs mode data fs
  | none => none

/-- Which of the fallible calls of the run the operating system lets succeed. -/
structure OsOk where
  mkdirTemp : Bool
  renameOld : Bool
  renameNew : Bool
  restore : Bool
  removeStage : Bool
  removeOld : Bool
  removeGit : Bool
  deriving DecidableEq, Repr

/-- Every call is allowed to succeed. -/
def OsOk.all : OsOk := ⟨true, true, true, true, true, true, true⟩

/-- The name `os.MkdirTemp(".", "ghdir_*")` picks below the working directory. -/
def tempName (rnd : Nat) : Str := "ghdir_".toList ++ Nat.toDigits 10 rnd

/-- The call `os.MkdirTemp(".", "ghdir_*")`: the returned path `./ghdir_<digits>` and the
state with the new empty directory; `none` is an error. -/
def osMkdirTemp (ok : Bool) (fs : Dir) (rnd : Nat) : Option (Str × Dir) :=
  if ok && (fs.child (tempName rnd)).isNone then
    some ("./".toList ++ tempName rnd, fs.set (tempName rnd) (Tree.dir []))
  else none

/-- The value `fmt.Sprintf("%s.old.%d", targetDir, time.Now().Unix())`. -/
def oldDirName (targetDir : Str) (now : Nat) : Str :=
  targetDir ++ ".old.".toList ++ Nat.toDigits 10 now

/-! ## Archive extraction -/

/-- The fields of a `tar.Header` the loop reads. -/
structure Header where
  Name : Str
  isDir : Bool
  Mode : Nat

/-- What `tr.Next()` returns before `io.EOF`: an entry with its bytes, or an error. -/
inductive TarItem where
  | entry (h : Header) (body : Str)
  | bad

/-- A call of the extraction loop that creates something. -/
inductive FsCall where
  | mkdirAll (path : Str)
  | openFile (path : Str) (mode : Nat)
  deriving DecidableEq, Repr

/-- The variables of the extraction loop: the tree, `count`, and the creating
calls issued so far (oldest first). -/
structure ExtractState where
  fs : Dir
  count : Nat
  calls : List FsCall

/-- The lines `parts := strings.Split(header.Name, "/")` to
`target := filepath.Join(extractDir, filepath.Join(parts[extractStrip:]...))`:
`none` is the `continue` of `len(parts) <= extractStrip`. -/
def entryTarget (extractDir : Str) (extractStrip : Nat) (name : Str) : Option Str :=
  let parts := stringsSplit name
  if parts.length ≤ extractStrip then none
  else some (filepathJoin [extractDir, filepathJoin (parts.drop extractStrip)])

/-- One iteration of the extraction loop of `main.go` on an entry: `error` is the failure
of `os.OpenFile`, which ends the run, with the state reached. -/
def extractEntry (extractDir : Str) (extractStrip : Nat) (h : Header) (body : Str)
    (st : ExtractState) : Except ExtractState ExtractState :=
  match entryTarget extractDir extractStrip h.Name with
  | none => Except.ok st
  | some target =>
    if h.isDir then
      Except.ok ⟨osMkdirAll st.fs target, st.count + 1, st.calls ++ [FsCall.mkdirAll target]⟩
    else
      let fs1 := osMkdirAll st.fs (filepathDir target)
      match osWriteFile fs1 target h.Mode body with
      | none =>
        Except.error ⟨fs1, st.count,
          st.calls ++ [FsCall.mkdirAll (filepathDir target), FsCall.openFile target h.Mode]⟩
      | some fs2 =>
        Except.ok ⟨fs2, st.count + 1,
          st.calls ++ [FsCall.mkdirAll (filepathDir target), FsCall.openFile target h.Mode]⟩

/-- The extraction loop of `main.go` up to `io.EOF`: `error` is a fatal error (of `tr.Next()` or of
`os.OpenFile`) with the state reached. -/
def extractLoop (extractDir : Str) (extractStrip : Nat) :
    List TarItem → ExtractState → Except ExtractState ExtractState
  | [], st => Except.ok st
  | TarItem.bad :: _, st => Except.error st
  | TarItem.entry h body :: rest, st =>
    match extractEntry extractDir extractStrip h body st with
    | Except.error st1 => Except.error st1
    | Except.ok st1 => extractLoop extractDir extractStrip rest st1

/-- One iteration of the extraction loop of `cmd/root.go`: the target is relative to the
working directory, every error is ignored, and only files are counted. -/
def Cmd.extractEntry (strip : Nat) (h : Header) (body : Str) (st : ExtractState) :
    ExtractState :=
  let parts := stringsSplit h.Name
  if parts.length ≤ strip then st
  else
    let target := filepathJoin (parts.drop strip)
    if h.isDir then
      ⟨osMkdirAll st.fs target, st.count, st.calls ++ [FsCall.mkdirAll target]⟩
    else
      let fs1 := osMkdirAll st.fs (filepathDir target)
      ⟨(osWriteFile fs1 target 420 body).getD fs1, st.count + 1,
        st.calls ++ [FsCall.mkdirAll (filepathDir target), FsCall.openFile target 420]⟩

/-! ## Atomic materializer -/

/-- How the swap into the target name ended. -/
inductive SwapResult where
  | done
  | renameOldFailed
  | atomicRenameFailed
  deriving DecidableEq, Repr

/-- The swap both paths of `main.go` perform (lines 195 to 217 of `run`, and the lines after
the comment `Atomic rename` of `downloadWithSparse`, which differ in names only): move
an existing target aside under a timestamped name, rename `srcDir` into the target
name; on failure restore the backup and remove `stageDir`, on success remove the
backup. -/
def swapInto (ok : OsOk) (fs : Dir) (srcDir stageDir targetDir : Str) (now : Nat) :
    SwapResult × Dir :=
  let aside : Option (Str × Dir) :=
    if osStat fs targetDir then
      (osRename ok.renameOld fs targetDir (oldDirName targetDir now)).map
        (fun fs1 => (oldDirName targetDir now, fs1))
    else some ([], fs)
  match aside with
  | none => (SwapResult.renameOldFailed, (osRemoveAll ok.removeStage fs stageDir).1)
  | some (oldDir, fs1) =>
    match osRename ok.renameNew fs1 srcDir targetDir with
    | none =>
      let fs2 := if oldDir ≠ [] then (osRename ok.restore fs1 oldDir targetDir).getD fs1 else fs1
      (SwapResult.atomicRenameFailed, (osRemoveAll ok.removeStage fs2 stageDir).1)
    | some fs2 =>
      (SwapResult.done, if oldDir ≠ [] then (osRemoveAll ok.removeOld fs2 oldDir).1 else fs2)

/-- The block `if atomic { ... }` that ends the full-archive path of `run`: the staging
directory is both the source of the rename and what is removed on failure. -/
def materialize (ok : OsOk) (fs : Dir) (extractDir targetDir : Str) (now : Nat) :
    SwapResult × Dir :=
  swapInto ok fs extractDir extractDir targetDir now

/-- The part of `downloadWithSparse` after the `.git` directory is removed: the source of the
rename is the checked-out subfolder `filepath.Join(tempDir, folderPath)`, and the
temporary clone is removed at the end, also on success. -/
def materializeSparse (ok : OsOk) (fs : Dir) (tempDir folder : Str) (now : Nat) :
    SwapResult × Dir :=
  match swapInto ok fs (filepathJoin [tempDir, folder]) tempDir (getLastFolder folder) now with
  | (SwapResult.done, fs3) => (SwapResult.done, (osRemoveAll ok.removeStage fs3 tempDir).1)
  | (r, fs3) => (r, fs3)

/-! ## Change cache -/

/-- The mapping `map[string]string` kept in `cache.json`. -/
abbrev Cache := Str → Option Str

/-- The assignment `cache[key] = value`. -/
def Cache.set (c : Cache) (key value : Str) : Cache :=
  fun k => if k = key then some value else c k

/-- The read `cache[key]`: the empty string when the key is missing. -/
def Cache.get (c : Cache) (key : Str) : Str := (c key).getD []

/-- The value `fmt.Sprintf("%s/%s/%s/%s", user, repo, branch, folder)`. -/
def cacheKey (t : FetchTarget) : Str :=
  t.user ++ '/' :: t.repo ++ '/' :: t.branch ++ '/' :: t.folder

/-! ## The run -/

/-- The fields of an HTTP response the run reads. -/
structure Response where
  StatusCode : Nat
  ContentLength : Int
  ETag : Str

/-- What `http.NewRequest` followed by `http.DefaultClient.Do` gives. -/
inductive HttpResult where
  | requestError
  | transportError
  | response (r : Response)

/-- Everything a run observes from outside.  `cache` is what `loadCache` returns: a map, or
`none` for the nil map that `json.Unmarshal` leaves when `cache.json` holds `null`. -/
structure World where
  cache : Option Cache
  head : HttpResult
  answer : Str
  get : HttpResult
  gzipOk : Bool
  archive : List TarItem
  rnd : Nat
  now : Nat
  git : Option Dir
  ok : OsOk

/-- How a run ends.  `unchanged`, `declined` and `done` return normally; `cacheNil` is the
panic of `cache[key] = newETag` on a nil map, after the fetch has been completed and
reported; every other outcome is `os.Exit(1)`. -/
inductive Outcome where
  | invalidURL
  | requestFailed
  | unchanged
  | remoteUnavailable
  | declined
  | sparseFailed
  | archiveUnreadable
  | tempDirFailed
  | extractionFailed
  | swapFailed (r : SwapResult)
  | done (strategy : Strategy) (count : Nat)
  | cacheNil (count : Nat)
  deriving DecidableEq, Repr

/-- The end of a run: outcome, working directory, and the mapping handed to
`saveCache` when it was called. -/
structure Final where
  outcome : Outcome
  fs : Dir
  saved : Option Cache

/-- The lines of `run` between the HEAD response and the download: a 304 ends the run as
unchanged, any other status than 200 is fatal, otherwise `useSparse` picks the
strategy. -/
def selectStrategy (status : Nat) (folder : Str) (contentLength : Int) :
    Except Outcome Strategy :=
  if status = 304 then Except.error Outcome.unchanged
  else if status ≠ 200 then Except.error Outcome.remoteUnavailable
  else if useSparse folder contentLength then Except.ok Strategy.SparseCheckout
  else Except.ok Strategy.FullDownload

/-- The function `countFilesAndFolders`: the nodes `filepath.Walk` visits, the root not counted;
0 when the walk fails. -/
def countFilesAndFolders (fs : Dir) (dir : Str) : Nat :=
  match resolve dir with
  | some segs =>
    match lookupPath segs fs with
    | some t => t.nodes - 1
    | none => 0
  | none => 0

/-- The function `downloadWithSparse`: whether it returned `nil`, and the working directory
after it.  The four `git` commands are external; `w.git` is the tree they leave
in the temporary directory, `none` when one of them fails. -/
def downloadWithSparse (w : World) (fs : Dir) (folder : Str) : Bool × Dir :=
  match osMkdirTemp w.ok.mkdirTemp fs w.rnd with
  | none => (false, fs)
  | some (tempDir, fs0) =>
    match w.git with
    | none => (false, (osRemoveAll w.ok.removeStage fs0 tempDir).1)
    | some tree =>
      let fs1 := fs0.set (tempName w.rnd) (Tree.dir tree)
      match osRemoveAll w.ok.removeGit fs1 (filepathJoin [tempDir, ".git".toList]) with
      | (_, false) => (false, (osRemoveAll w.ok.removeStage fs1 tempDir).1)
      | (fs2, true) =>
        match materializeSparse w.ok fs2 tempDir folder w.now with
        | (SwapResult.done, fs3) => (true, fs3)
        | (_, fs3) => (false, fs3)

/-- The `else` branch of `if useSparse` in `run`: the GET request, the extraction and the
swap, with `atomic := folder != ""` written out.  The result is the outcome when
the run ends here, or the new ETag, the count and the working directory. -/
def fullDownload (w : World) (fs : Dir) (t : FetchTarget) :
    Except (Outcome × Dir) (Str × Nat × Dir) :=
  match w.get with
  | HttpResult.requestError => Except.error (Outcome.requestFailed, fs)
  | HttpResult.transportError => Except.error (Outcome.requestFailed, fs)
  | HttpResult.response resp =>
    if resp.StatusCode = 304 then Except.error (Outcome.unchanged, fs)
    else if resp.StatusCode ≠ 200 then Except.error (Outcome.remoteUnavailable, fs)
    else if ¬ w.gzipOk then Except.error (Outcome.archiveUnreadable, fs)
    else
      let staged : Option (Str × Dir) :=
        if t.folder ≠ [] then osMkdirTemp w.ok.mkdirTemp fs w.rnd else some (['.'], fs)
      match staged with
      | none => Except.error (Outcome.tempDirFailed, fs)
      | some (extractDir, fs0) =>
        match extractLoop extractDir (extractStrip t.repo t.branch t.folder) w.archive
            ⟨fs0, 0, []⟩ with
        | Except.error st =>
          Except.error (Outcome.extractionFailed,
            if t.folder ≠ [] then (osRemoveAll w.ok.removeStage st.fs extractDir).1 else st.fs)
        | Except.ok st =>
          if t.folder ≠ [] then
            match materialize w.ok st.fs extractDir (getLastFolder t.folder) w.now with
            | (SwapResult.done, fs1) => Except.ok (resp.ETag, st.count, fs1)
            | (r, fs1) => Except.error (Outcome.swapFailed r, fs1)
          else Except.ok (resp.ETag, st.count, st.fs)

/-- The function `run` of `main.go`, from the parsed argument to the update of the cache. -/
def run (w : World) (fs : Dir) (path : Str) : Final :=
  match parseGitHubURL path with
  | none => ⟨Outcome.invalidURL, fs, none⟩
  | some t =>
    match w.head with
    | HttpResult.requestError => ⟨Outcome.requestFailed, fs, none⟩
    | HttpResult.transportError => ⟨Outcome.requestFailed, fs, none⟩
    | HttpResult.response resp =>
      match selectStrategy resp.StatusCode t.folder resp.ContentLength with
      | Except.error o => ⟨o, fs, none⟩
      | Except.ok strategy =>
        if resp.ContentLength > largeThreshold ∧ confirms w.answer = false then
          ⟨Outcome.declined, fs, none⟩
        else
          match strategy with
          | Strategy.SparseCheckout =>
            match downloadWithSparse w fs t.folder with
            | (false, fs1) => ⟨Outcome.sparseFailed, fs1, none⟩
            | (true, fs1) =>
              ⟨Outcome.done Strategy.SparseCheckout
                (countFilesAndFolders fs1 (getLastFolder t.folder)), fs1, none⟩
          | Strategy.FullDownload =>
            match fullDownload w fs t with
            | Except.error (o, fs1) => ⟨o, fs1, none⟩
            | Except.ok (newETag, count, fs1) =>
              if newETag ≠ [] then
                match w.cache with
                | some cache =>
                  ⟨Outcome.done Strategy.FullDownload count, fs1,
                    some (cache.set (cacheKey t) newETag)⟩
                | none => ⟨Outcome.cacheNil count, fs1, none⟩
              else ⟨Outcome.done Strategy.FullDownload count, fs1, none⟩

/-! ## A sample run -/

/-- The archive of a small repository: a wrapper directory, a README, the folder
`src/lib` with two files, and `docs/api/index.md`. -/
def sampleArchive : List TarItem :=
  [TarItem.entry ⟨"repo-main/".toList, true, 493⟩ [],
   TarItem.entry ⟨"repo-main/README.md".toList, false, 420⟩ "readme".toList,
   TarItem.entry ⟨"repo-main/src/".toList, true, 493⟩ [],
   TarItem.entry ⟨"repo-main/src/lib/".toList, true, 493⟩ [],
   TarItem.entry ⟨"repo-main/src/lib/a.go".toList, false, 420⟩ "A".toList,
   TarItem.entry ⟨"repo-main/src/lib/sub/b.go".toList, false, 420⟩ "B".toList,
   TarItem.entry ⟨"repo-main/docs/api/index.md".toList, false, 420⟩ "DOC".toList]

/-- A run in which every request succeeds and every call of the operating system is
allowed to succeed. -/
def sampleWorld : World :=
  ⟨some (fun _ => none), HttpResult.response ⟨200, 1000, []⟩, [],
    HttpResult.response ⟨200, 1000, "W/abc".toList⟩, true, sampleArchive, 7, 1730000000, none,
    OsOk.all⟩

/-- A working directory before the swap of the full-archive path: an earlier `lib` and the
staging directory `ghdir_7` with the extracted file. -/
def sampleDir : Dir :=
  [("lib".toList, Tree.dir [("old.txt".toList, Tree.file 420 "x".toList)]),
   ("ghdir_7".toList, Tree.dir [("a.go".toList, Tree.file 420 "A".toList)])]

/-- A working directory before the swap of the sparse path: an earlier `lib` and the
temporary clone `ghdir_7` with `src/lib` checked out. -/
def sampleClone : Dir :=
  [("lib".toList, Tree.dir [("old.txt".toList, Tree.file 420 "x".toList)]),
   ("ghdir_7".toList,
     Tree.dir [("src".toList,
       Tree.dir [("lib".toList, Tree.dir [("a.go".toList, Tree.file 420 "A".toList)])])])]

/-- The operating system refuses the rename of the staged directory into the target. -/
def OsOk.swapRefused : OsOk := ⟨true, true, false, true, true, true, true⟩

/-- The operating system refuses that rename and the restoring one. -/
def OsOk.restoreRefused : OsOk := ⟨true, true, false, false, true, true, true⟩

/-- The operating system refuses the removal of the backup. -/
def OsOk.cleanupRefused : OsOk := ⟨true, true, true, true, true, false, true⟩

/-- The operating system refuses the rename into the target and the removal of the
staging directory. -/
def OsOk.stageKept : OsOk := ⟨true, true, false, true, false, true, true⟩

/-- The operating system refuses the removal of the staging directory only. -/
def OsOk.cloneKept : OsOk := ⟨true, true, true, true, false, true, true⟩

/-- A run against an archive above 500 MiB, for which `git` checks out `src/lib`. -/
def sparseWorld : World :=
  ⟨some (fun _ => none), HttpResult.response ⟨200, 600000000, "W/abc".toList⟩, [],
    HttpResult.response ⟨200, 600000000, "W/abc".toList⟩, true, sampleArchive, 7, 1730000000,
    some [(".git".toList, Tree.dir []),
      ("src".toList,
        Tree.dir [("lib".toList, Tree.dir [("a.go".toList, Tree.file 420 "A".toList)])])],
    OsOk.all⟩

/-! ## Facts about the string functions -/

theorem stringsSplit_ne_nil (s : Str) : stringsSplit s ≠ [] := by
  cases s with
  | nil => simp [stringsSplit]
  | cons c cs =>
    unfold stringsSplit
    split
    · simp
    · split <;> simp

theorem stringsSplit_cons_slash (cs : Str) :
    stringsSplit ('/' :: cs) = [] :: stringsSplit cs := by
  simp [stringsSplit]

theorem stringsSplit_cons_other (c : Char) (cs : Str) (h : c ≠ '/') :
    ∃ s ss, stringsSplit cs = s :: ss ∧ stringsSplit (c :: cs) = (c :: s) :: ss := by
  cases hsp : stringsSplit cs with
  | nil => exact absurd hsp (stringsSplit_ne_nil cs)
  | cons s ss => exact ⟨s, ss, rfl, by simp [stringsSplit, h, hsp]⟩

theorem stringsSplit_append (a r : Str) (ha : '/' ∉ a) :
    stringsSplit (a ++ '/' :: r) = a :: stringsSplit r := by
  induction a with
  | nil => simp [stringsSplit_cons_slash]
  | cons c cs ih =>
    have hc : c ≠ '/' := fun h => ha (by simp [h])
    have hcs : '/' ∉ cs := fun h => ha (by simp [h])
    have := ih hcs
    simp [stringsSplit, hc, this]

theorem stringsSplit_plain (a : Str) (ha : '/' ∉ a) : stringsSplit a = [a] := by
  induction a with
  | nil => simp [stringsSplit]
  | cons c cs ih =>
    have hc : c ≠ '/' := fun h => ha (by simp [h])
    have hcs : '/' ∉ cs := fun h => ha (by simp [h])
    simp [stringsSplit, hc, ih hcs]

theorem stringsSplit_join (segs : List Str) (hne : segs ≠ [])
    (h : ∀ s ∈ segs, '/' ∉ s) : stringsSplit (stringsJoin segs) = segs := by
  induction segs with
  | nil => exact absurd rfl hne
  | cons a r ih =>
    cases r with
    | nil => simpa [stringsJoin] using stringsSplit_plain a (h a (by simp))
    | cons b r2 =>
      have h1 : '/' ∉ a := h a (by simp)
      have h2 := ih (by simp) (fun s hs => h s (by simp [hs]))
      simp only [stringsJoin] at h2 ⊢
      rw [stringsSplit_append a _ h1, h2]

theorem stringsSplit_no_slash (s : Str) : ∀ x ∈ stringsSplit s, '/' ∉ x := by
  induction s with
  | nil => simp [stringsSplit]
  | cons c cs ih =>
    by_cases h : c = '/'
    · subst h
      rw [stringsSplit_cons_slash]
      intro x hx
      simp at hx
      rcases hx with rfl | hx
      · simp
      · exact ih x hx
    · obtain ⟨s, ss, h1, h2⟩ := stringsSplit_cons_other c cs h
      rw [h2]
      rw [h1] at ih
      intro x hx
      simp at hx
      rcases hx with rfl | hx
      · have := ih s (by simp)
        simp [this]
        exact fun e => h e.symm
      · exact ih x (by simp [hx])

theorem stringsJoin_split (s : Str) : stringsJoin (stringsSplit s) = s := by
  induction s with
  | nil => simp [stringsSplit, stringsJoin]
  | cons c cs ih =>
    by_cases h : c = '/'
    · subst h
      rw [stringsSplit_cons_slash]
      cases hsp : stringsSplit cs with
      | nil => exact absurd hsp (stringsSplit_ne_nil cs)
      | cons s ss =>
        rw [hsp] at ih
        simp [stringsJoin, ih]
    · obtain ⟨s, ss, h1, h2⟩ := stringsSplit_cons_other c cs h
      rw [h2]
      rw [h1] at ih
      cases ss with
      | nil => simpa [stringsJoin] using ih
      | cons t r => simpa [stringsJoin] using ih

theorem stringsJoin_cons (a : Str) (r : List Str) (hr : r ≠ []) :
    stringsJoin (a :: r) = a ++ '/' :: stringsJoin r := by
  cases r with
  | nil => exact absurd rfl hr
  | cons b r2 => simp [stringsJoin]

/-! ## Facts about the locator -/

theorem stringsTrim_head (s : Str) : (stringsTrim s).head? ≠ some '/' := by
  unfold stringsTrim
  intro h
  set l := s.dropWhile (fun c => decide (c = '/')) with hl
  -- the trimmed string is a prefix of `l`
  have hpre : ((l.reverse.dropWhile (fun c => decide (c = '/'))).reverse) <+: l := by
    have := List.dropWhile_suffix (fun c => decide (c = '/')) (l := l.reverse)
    have h2 := List.reverse_prefix.mpr this
    simpa using h2
  obtain ⟨t, ht⟩ := hpre
  cases hx : (l.reverse.dropWhile (fun c => decide (c = '/'))).reverse with
  | nil => simp [hx] at h
  | cons a r =>
    rw [hx] at h ht
    simp at h
    subst h
    have hh := List.head?_dropWhile_not (fun c => decide (c = '/')) s
    rw [← hl, ← ht] at hh
    simp at hh

theorem stringsTrim_last (s : Str) : (stringsTrim s).getLast? ≠ some '/' := by
  unfold stringsTrim
  intro h
  rw [List.getLast?_reverse] at h
  have hh := List.head?_dropWhile_not (fun c => decide (c = '/'))
    (s.dropWhile (fun c => decide (c = '/'))).reverse
  rw [h] at hh
  simp at hh

theorem treeScan_first (parts : List Str) : ∀ (i : Nat),
    parts[i]? = some "tree".toList → i + 1 < parts.length →
    (∀ j, j < i → ¬ (parts[j]? = some "tree".toList ∧ j + 1 < parts.length)) →
    ∃ b, parts[i + 1]? = some b ∧ treeScan parts = some (b, stringsJoin (parts.drop (i + 2))) := by
  induction parts with
  | nil => intro i _ h2 _; simp at h2
  | cons p rest ih =>
    intro i h1 h2 h3
    cases rest with
    | nil => simp at h2
    | cons b more =>
      cases i with
      | zero =>
        simp at h1
        subst h1
        refine ⟨b, by simp, ?_⟩
        cases more with
        | nil => simp [treeScan, stringsJoin]
        | cons m r => simp [treeScan]
      | succ k =>
        have hp : p ≠ "tree".toList := by
          intro hp
          exact h3 0 (Nat.succ_pos k) ⟨by simp [hp], by simp⟩
        have h1k : (b :: more)[k]? = some "tree".toList := by simpa using h1
        have h2k : k + 1 < (b :: more).length := by simp at h2 ⊢; omega
        have h3k : ∀ j, j < k →
            ¬ ((b :: more)[j]? = some "tree".toList ∧ j + 1 < (b :: more).length) := by
          intro j hj hc
          refine h3 (j + 1) (by omega) ⟨by simpa using hc.1, ?_⟩
          have := hc.2
          simp at this ⊢
          omega
        obtain ⟨x, hx1, hx2⟩ := ih k h1k h2k h3k
        refine ⟨x, by simpa using hx1, ?_⟩
        have hts : treeScan (p :: b :: more) = treeScan (b :: more) := by
          simp only [treeScan]
          rw [if_neg hp]
        rw [hts, hx2]
        simp

theorem treeScan_none (parts : List Str)
    (h : ∀ i, ¬ (parts[i]? = some "tree".toList ∧ i + 1 < parts.length)) :
    treeScan parts = none := by
  induction parts with
  | nil => simp [treeScan]
  | cons p rest ih =>
    cases rest with
    | nil => simp [treeScan]
    | cons b more =>
      have hp : p ≠ "tree".toList := by
        intro hp
        exact h 0 ⟨by simp [hp], by simp⟩
      have hts : treeScan (p :: b :: more) = treeScan (b :: more) := by
        simp only [treeScan]
        rw [if_neg hp]
      rw [hts]
      apply ih
      intro i hc
      refine h (i + 1) ⟨by simpa using hc.1, ?_⟩
      have := hc.2
      simp at this ⊢
      omega

theorem parseGitHubURL_some (path : Str) (t : FetchTarget) (h : parseGitHubURL path = some t) :
    ∃ more, stringsSplit (stringsTrim path) = t.user :: t.repo :: more := by
  unfold parseGitHubURL at h
  simp only at h
  split at h
  · exact absurd h (by simp)
  · split at h
    · rename_i user repo more heq
      refine ⟨more, ?_⟩
      split at h
      · simp at h
        subst h
        exact heq
      · simp at h
        subst h
        exact heq
    · exact absurd h (by simp)

/-- C4. `parseGitHubURL` rejects a path with fewer than two segments; otherwise the owner
is segment 0, the repository segment 1, and the first `tree` that has a
successor (position `i`) gives the branch (segment `i+1`) and the subfolder
(the segments after `i+1` joined with `/`, empty if there are none); with no
such position the branch is `main` and the subfolder is empty. -/
theorem parseGitHubURL_locates (path : Str) (parts : List Str)
    (hparts : stringsSplit (stringsTrim path) = parts) :
    (parts.length < 2 → parseGitHubURL path = none) ∧
    (2 ≤ parts.length →
      ∃ t, parseGitHubURL path = some t ∧
        parts[0]? = some t.user ∧ parts[1]? = some t.repo ∧
        (∀ i, parts[i]? = some "tree".toList → i + 1 < parts.length →
          (∀ j, j < i → ¬ (parts[j]? = some "tree".toList ∧ j + 1 < parts.length)) →
          parts[i + 1]? = some t.branch ∧ t.folder = stringsJoin (parts.drop (i + 2))) ∧
        ((∀ i, ¬ (parts[i]? = some "tree".toList ∧ i + 1 < parts.length)) →
          t.branch = "main".toList ∧ t.folder = [])) := by
  constructor
  · intro hlt
    unfold parseGitHubURL
    simp only [hparts]
    rw [if_pos hlt]
  · intro hge
    match parts, hparts, hge with
    | user :: repo :: more, hparts, _ =>
      cases hs : treeScan (user :: repo :: more) with
      | none =>
        refine ⟨⟨user, repo, "main".toList, []⟩, ?_, by simp, by simp, ?_, ?_⟩
        · unfold parseGitHubURL
          simp only [hparts, hs]
          simp
        · intro i h1 h2 h3
          obtain ⟨b, _, hb⟩ := treeScan_first _ i h1 h2 h3
          rw [hs] at hb
          exact absurd hb (by simp)
        · intro _
          exact ⟨rfl, rfl⟩
      | some bf =>
        obtain ⟨b, f⟩ := bf
        refine ⟨⟨user, repo, b, f⟩, ?_, by simp, by simp, ?_, ?_⟩
        · unfold parseGitHubURL
          simp only [hparts, hs]
          simp
        · intro i h1 h2 h3
          obtain ⟨x, hx1, hx2⟩ := treeScan_first _ i h1 h2 h3
          rw [hs] at hx2
          simp at hx2
          obtain ⟨rfl, rfl⟩ := hx2
          exact ⟨hx1, rfl⟩
        · intro hno
          rw [treeScan_none _ hno] at hs
          exact absurd hs (by simp)

/-- Witness of C4 on `/owner/repo/tree/main/src/lib`. -/
theorem parseGitHubURL_locates_witness :
    ∃ t, parseGitHubURL "/owner/repo/tree/main/src/lib".toList = some t ∧
      t.user = "owner".toList ∧ t.repo = "repo".toList ∧
      t.branch = "main".toList ∧ t.folder = "src/lib".toList := by
  obtain ⟨t, ht, hu, hr, hfirst, _⟩ :=
    (parseGitHubURL_locates "/owner/repo/tree/main/src/lib".toList
      ["owner".toList, "repo".toList, "tree".toList, "main".toList, "src".toList, "lib".toList]
      (by decide)).2 (by decide)
  obtain ⟨hb, hf⟩ := hfirst 2 (by decide) (by decide) (by decide)
  refine ⟨t, ht, ?_, ?_, ?_, ?_⟩
  · simpa using hu.symm
  · simpa using hr.symm
  · simpa using hb.symm
  · rw [hf]; decide

/-- C5, as amended. For every path `parseGitHubURL` accepts the owner is non-empty, and the
repository is empty exactly when the owner is directly followed by `//`. -/
theorem parseGitHubURL_owner_repo (path : Str) (t : FetchTarget)
    (h : parseGitHubURL path = some t) :
    t.user ≠ [] ∧
    (t.repo = [] ↔ ∃ rest, stringsTrim path = t.user ++ '/' :: '/' :: rest) := by
  obtain ⟨more, hsp⟩ := parseGitHubURL_some path t h
  have hjoin : stringsTrim path = t.user ++ '/' :: stringsJoin (t.repo :: more) := by
    have := stringsJoin_split (stringsTrim path)
    rw [hsp, stringsJoin_cons _ _ (by simp)] at this
    exact this.symm
  refine ⟨?_, ?_, ?_⟩
  · intro hu
    have := stringsTrim_head path
    rw [hjoin, hu] at this
    simp at this
  · intro hr
    cases more with
    | nil =>
      have := stringsTrim_last path
      rw [hjoin, hr] at this
      simp [stringsJoin] at this
    | cons m r =>
      refine ⟨stringsJoin (m :: r), ?_⟩
      rw [hjoin, hr]
      simp [stringsJoin]
  · rintro ⟨rest, hrest⟩
    have hu : '/' ∉ t.user := stringsSplit_no_slash (stringsTrim path) t.user (by simp [hsp])
    have := stringsSplit_append t.user ('/' :: rest) hu
    rw [← hrest, hsp, stringsSplit_cons_slash] at this
    simp at this
    exact this.1

/-- Witness of the amended C5 on `/owner/repo`. -/
theorem parseGitHubURL_owner_repo_witness :
    "owner".toList ≠ [] ∧
    ("repo".toList = [] ↔ ∃ rest, stringsTrim "/owner/repo".toList =
        "owner".toList ++ '/' :: '/' :: rest) :=
  parseGitHubURL_owner_repo "/owner/repo".toList
    ⟨"owner".toList, "repo".toList, "main".toList, []⟩ (by decide)

/-- Counterexample to C5 as stated: the path of `https://github.com/torvalds//linux` is accepted
and the repository returned is the empty string. -/
theorem parseGitHubURL_empty_repo :
    parseGitHubURL "/torvalds//linux".toList =
        some ⟨"torvalds".toList, [], "main".toList, []⟩ ∧
      ¬ ("torvalds".toList ≠ [] ∧ ([] : Str) ≠ []) := by
  constructor
  · decide
  · simp

/-- C6. After a HEAD response with status 200, SparseCheckout is selected exactly when the
subfolder is non-empty and the content length exceeds 524288000 bytes; otherwise
FullDownload is selected: never SparseCheckout for an empty subfolder, and
FullDownload at exactly 500 MiB and for the unknown length -1. -/
theorem selectStrategy_threshold (status : Nat) (folder : Str) (contentLength : Int)
    (hstatus : status = 200) :
    (selectStrategy status folder contentLength = Except.ok Strategy.SparseCheckout ↔
      folder ≠ [] ∧ contentLength > 524288000) ∧
    (¬ (folder ≠ [] ∧ contentLength > 524288000) →
      selectStrategy status folder contentLength = Except.ok Strategy.FullDownload) ∧
    selectStrategy status [] contentLength = Except.ok Strategy.FullDownload ∧
    selectStrategy status folder 524288000 = Except.ok Strategy.FullDownload ∧
    selectStrategy status folder (-1) = Except.ok Strategy.FullDownload := by
  subst hstatus
  have key : ∀ (f : Str) (n : Int),
      useSparse f n = true ↔ f ≠ [] ∧ n > 524288000 := by
    intro f n
    simp [useSparse]
  refine ⟨?_, ?_, ?_, ?_, ?_⟩
  · unfold selectStrategy
    by_cases hu : useSparse folder contentLength = true
    · simp [hu, (key _ _).mp hu]
    · have hn := mt (key folder contentLength).mpr hu
      simp only [hu]
      simp
      simpa using hn
  · intro hn
    have hu : ¬ useSparse folder contentLength = true := mt (key _ _).mp hn
    unfold selectStrategy
    simp [hu]
  · have hu : ¬ useSparse [] contentLength = true := mt (key _ _).mp (by simp)
    unfold selectStrategy
    simp [hu]
  · have hu : ¬ useSparse folder 524288000 = true := mt (key _ _).mp (by simp)
    unfold selectStrategy
    simp [hu]
  · have hu : ¬ useSparse folder (-1) = true := mt (key _ _).mp (by simp)
    unfold selectStrategy
    simp [hu]

/-- Witness of C6: subfolder `src`, one byte above the threshold. -/
theorem selectStrategy_threshold_witness :
    selectStrategy 200 "src".toList 524288001 = Except.ok Strategy.SparseCheckout :=
  (selectStrategy_threshold 200 "src".toList 524288001 rfl).1.mpr (by decide)

/-! ## Facts about paths -/

theorem digitChar_plain : ∀ d, d < 10 → Nat.digitChar d ≠ '/' ∧ Nat.digitChar d ≠ '.' := by
  decide

theorem toDigitsCore_plain (fuel : Nat) : ∀ (n : Nat) (acc : List Char),
    (∀ c ∈ acc, c ≠ '/' ∧ c ≠ '.') →
    ∀ c ∈ Nat.toDigitsCore 10 fuel n acc, c ≠ '/' ∧ c ≠ '.' := by
  induction fuel with
  | zero => intro n acc h; simpa [Nat.toDigitsCore] using h
  | succ f ih =>
    intro n acc h
    have hd := digitChar_plain (n % 10) (Nat.mod_lt _ (by decide))
    have hacc : ∀ c ∈ Nat.digitChar (n % 10) :: acc, c ≠ '/' ∧ c ≠ '.' := by
      intro c hc
      simp at hc
      rcases hc with rfl | hc
      · exact hd
      · exact h c hc
    unfold Nat.toDigitsCore
    simp only
    split
    · exact hacc
    · exact ih _ _ hacc

theorem toDigits_plain (n : Nat) : ∀ c ∈ Nat.toDigits 10 n, c ≠ '/' ∧ c ≠ '.' := by
  unfold Nat.toDigits
  exact toDigitsCore_plain _ _ _ (by simp)

theorem tempName_ordinary (rnd : Nat) : ordinary (tempName rnd) := by
  unfold ordinary tempName
  refine ⟨by simp, ?_, by simp, by simp⟩
  intro h
  simp at h
  exact (toDigits_plain rnd '/' h).1 rfl

theorem cleanStep_ordinary (rooted : Bool) (stack : List Str) (seg : Str) (h : ordinary seg) :
    cleanStep rooted stack seg = seg :: stack := by
  obtain ⟨h1, _, h3, h4⟩ := h
  unfold cleanStep
  rw [if_neg (by simp [h1, h3]), if_neg h4]

theorem foldl_cleanStep_ordinary (rooted : Bool) (segs : List Str) :
    ∀ stack, (∀ s ∈ segs, ordinary s) →
      segs.foldl (cleanStep rooted) stack = segs.reverse ++ stack := by
  induction segs with
  | nil => intro stack _; simp
  | cons a r ih =>
    intro stack h
    simp only [List.foldl_cons]
    rw [cleanStep_ordinary _ _ _ (h a (by simp)), ih _ (fun s hs => h s (by simp [hs]))]
    simp

theorem stringsJoin_eq_nil (segs : List Str) (h : ∀ s ∈ segs, s ≠ []) :
    stringsJoin segs = [] ↔ segs = [] := by
  cases segs with
  | nil => simp [stringsJoin]
  | cons a r =>
    have ha : a ≠ [] := h a (by simp)
    cases r with
    | nil => simp [stringsJoin, ha]
    | cons b r2 => simp [stringsJoin, ha]

theorem stringsJoin_head (a : Str) (r : List Str) (ha : a ≠ []) :
    (stringsJoin (a :: r)).head? = a.head? := by
  cases a with
  | nil => exact absurd rfl ha
  | cons c cs =>
    cases r with
    | nil => simp [stringsJoin]
    | cons b r2 => simp [stringsJoin]

/-- Cleaning a relative path written as `.` followed by ordinary elements gives the
ordinary elements. -/
theorem cleanSegs_dot_ordinary (segs : List Str) (h : ∀ s ∈ segs, ordinary s) :
    cleanSegs (stringsJoin (['.'] :: segs)) = segs ∧
    (stringsJoin (['.'] :: segs)).head? ≠ some '/' := by
  have hsl : ∀ s ∈ (['.'] :: segs), '/' ∉ s := by
    intro s hs
    simp at hs
    rcases hs with rfl | hs
    · simp
    · exact (h s hs).2.1
  have hhead : (stringsJoin (['.'] :: segs)).head? = some '.' := by
    rw [stringsJoin_head _ _ (by simp)]
    rfl
  refine ⟨?_, by rw [hhead]; simp⟩
  unfold cleanSegs
  rw [stringsSplit_join _ (by simp) hsl, hhead]
  simp only [List.foldl_cons]
  have : cleanStep (decide (some '.' = some '/')) [] ['.'] = [] := by
    simp [cleanStep]
  rw [this, foldl_cleanStep_ordinary _ _ _ h]
  simp

theorem cleanSegs_ordinary (segs : List Str) (hne : segs ≠ []) (h : ∀ s ∈ segs, ordinary s) :
    cleanSegs (stringsJoin segs) = segs ∧ (stringsJoin segs).head? ≠ some '/' := by
  match segs, hne, h with
  | a :: r, _, h =>
    have ha := h a (by simp)
    have hhead : (stringsJoin (a :: r)).head? ≠ some '/' := by
      rw [stringsJoin_head _ _ ha.1]
      intro hc
      cases a with
      | nil => simp at hc
      | cons c cs =>
        simp at hc
        exact ha.2.1 (by simp [hc])
    refine ⟨?_, hhead⟩
    unfold cleanSegs
    rw [stringsSplit_join _ (by simp) (fun s hs => (h s hs).2.1)]
    have hr : ((stringsJoin (a :: r)).head? = some '/') = False := by simp [hhead]
    rw [foldl_cleanStep_ordinary _ _ _ h]
    simp

theorem child_unset_same (d : Dir) (n : Str) : (d.unset n).child n = none := by
  induction d with
  | nil => simp [Dir.unset, Dir.child]
  | cons e r ih =>
    obtain ⟨k, t⟩ := e
    by_cases h : k = n
    · simp [Dir.unset, h, ih]
    · simp [Dir.unset, Dir.child, h, ih]

theorem child_unset_ne (d : Dir) (n m : Str) (hm : m ≠ n) :
    (d.unset n).child m = d.child m := by
  induction d with
  | nil => simp [Dir.unset, Dir.child]
  | cons e r ih =>
    obtain ⟨k, t⟩ := e
    by_cases h : k = n
    · subst h
      have hk : ¬ k = m := fun e => hm e.symm
      simp [Dir.unset, Dir.child, ih, hk]
    · by_cases hk : k = m
      · subst hk
        simp [Dir.unset, Dir.child, h]
      · simp [Dir.unset, Dir.child, h, hk, ih]

theorem child_set_same (d : Dir) (n : Str) (t : Tree) : (d.set n t).child n = some t := by
  simp [Dir.set, Dir.child]

theorem child_set_ne (d : Dir) (n m : Str) (t : Tree) (hm : m ≠ n) :
    (d.set n t).child m = d.child m := by
  have hk : ¬ n = m := fun e => hm e.symm
  simp [Dir.set, Dir.child, hk, child_unset_ne d n m hm]

theorem entry_of_ne (d : Dir) (n : Str) (hn : n ≠ ['.', '.']) : d.entry n = d.child n := by
  unfold Dir.entry
  rw [if_neg hn]

theorem entry_congr (d1 d2 : Dir) (n : Str) (h : d1.child n = d2.child n) :
    d1.entry n = d2.entry n := by
  unfold Dir.entry
  rw [h]

theorem lookupPath_single (d : Dir) (n : Str) (hn : n ≠ ['.', '.']) :
    lookupPath [n] d = d.child n := by
  unfold lookupPath
  rw [entry_of_ne d n hn]
  cases h : d.child n with
  | none => rfl
  | some t =>
    cases t with
    | file m x => simp
    | dir sub => simp [lookupPath]

theorem lookupPath_congr (d1 d2 : Dir) (n : Str) (p : List Str)
    (h : d1.child n = d2.child n) : lookupPath (n :: p) d1 = lookupPath (n :: p) d2 := by
  simp only [lookupPath, entry_congr d1 d2 n h]

theorem lookupPath_child_some (d : Dir) (n : Str) (p : List Str) (t : Tree)
    (hn : n ≠ ['.', '.']) (h : lookupPath (n :: p) d = some t) : ∃ c, d.child n = some c := by
  cases hc : d.child n with
  | none => simp [lookupPath, entry_of_ne d n hn, hc] at h
  | some c => exact ⟨c, rfl⟩

theorem child_removePath_ne (d : Dir) (n m : Str) (p : List Str) (hm : m ≠ n) :
    (removePath (n :: p) d).child m = d.child m := by
  unfold removePath
  split
  · exact child_unset_ne d n m hm
  · split
    · exact child_set_ne d n m _ hm
    · rfl

theorem child_removePath_single (d : Dir) (n : Str) :
    (removePath [n] d).child n = none := by
  simp [removePath, child_unset_same]

/-- The effect of `renamePath` between two names of the working directory. -/
theorem renamePath_single (d d1 : Dir) (a c : Str) (hc2 : c ≠ ['.', '.'])
    (h : renamePath [a] [c] d = some d1) :
    a ≠ c ∧ ∃ node, d.child a = some node ∧ d1 = (d.unset a).set c node ∧
      (d.child c = none ∨ (node.isDir = false ∧ ∃ m x, d.child c = some (Tree.file m x))) := by
  unfold renamePath at h
  split at h
  · exact absurd h (by simp)
  · rename_i hcond
    have hac : a ≠ c := by
      intro e
      apply hcond
      simp [e]
    have ha2 : a ≠ ['.', '.'] := by
      intro e
      apply hcond
      simp [e]
    refine ⟨hac, ?_⟩
    rw [lookupPath_single _ _ ha2, lookupPath_single _ _ hc2] at h
    cases ha : d.child a with
    | none => simp [ha] at h
    | some node =>
      refine ⟨node, rfl, ?_⟩
      simp only [ha] at h
      cases hc : d.child c with
      | none =>
        simp only [hc, insertAt, removePath] at h
        simp at h
        exact ⟨h.symm, Or.inl rfl⟩
      | some t =>
        cases t with
        | dir sub => simp [hc] at h
        | file m x =>
          simp only [hc] at h
          split at h
          · exact absurd h (by simp)
          · rename_i hnd
            simp only [insertAt, removePath] at h
            simp at h
            exact ⟨h.symm, Or.inr ⟨by simpa using hnd, m, x, rfl⟩⟩

theorem renamePath_single_ok (d : Dir) (a c : Str) (node : Tree) (hac : a ≠ c)
    (ha2 : a ≠ ['.', '.']) (hc2 : c ≠ ['.', '.'])
    (ha : d.child a = some node) (hc : d.child c = none) :
    renamePath [a] [c] d = some ((d.unset a).set c node) := by
  unfold renamePath
  have : ¬ (([a].all (fun s => decide (s = ['.', '.']))) = true ∨ [c] = [] ∨ [a] <+: [c]) := by
    simp
    exact ⟨ha2, hac⟩
  rw [if_neg this, lookupPath_single _ _ ha2, lookupPath_single _ _ hc2, ha, hc]
  simp [insertAt, removePath]

/-- The effect of `renamePath` from a path below the name `a` to a name of the working
directory. -/
theorem renamePath_into (d d1 : Dir) (a c : Str) (p : List Str)
    (h : renamePath (a :: p) [c] d = some d1) :
    ∃ node, lookupPath (a :: p) d = some node ∧ d1 = (removePath (a :: p) d).set c node := by
  unfold renamePath at h
  split at h
  · exact absurd h (by simp)
  · cases ha : lookupPath (a :: p) d with
    | none => simp [ha] at h
    | some node =>
      refine ⟨node, rfl, ?_⟩
      simp only [ha] at h
      have hins : insertAt [c] node (removePath (a :: p) d) =
          some ((removePath (a :: p) d).set c node) := by
        simp [insertAt]
      rw [hins] at h
      split at h
      · exact absurd h (by simp)
      · split at h
        · exact absurd h (by simp)
        · simp at h
          exact h.symm
      · simp at h
        exact h.symm

theorem resolve_ordinary (segs : List Str) (hne : segs ≠ []) (h : ∀ s ∈ segs, ordinary s) :
    resolve (stringsJoin segs) = some segs := by
  obtain ⟨h1, h2⟩ := cleanSegs_ordinary segs hne h
  have hj : stringsJoin segs ≠ [] := by
    intro hc
    exact hne ((stringsJoin_eq_nil segs (fun s hs => (h s hs).1)).mp hc)
  unfold resolve
  rw [if_neg (by simp [hj, h2]), h1]

theorem resolve_dot_ordinary (segs : List Str) (h : ∀ s ∈ segs, ordinary s) :
    resolve (stringsJoin (['.'] :: segs)) = some segs := by
  obtain ⟨h1, h2⟩ := cleanSegs_dot_ordinary segs h
  have hj : stringsJoin (['.'] :: segs) ≠ [] := by
    intro hc
    have := congrArg List.head? hc
    rw [stringsJoin_head _ _ (by simp)] at this
    simp at this
  unfold resolve
  rw [if_neg (by simp [hj, h2]), h1]

theorem tempDir_eq (rnd : Nat) :
    "./".toList ++ tempName rnd = stringsJoin [['.'], tempName rnd] := by
  simp [stringsJoin]

/-- C1, evaluated at the failing input: subfolder `src/lib` of `owner/repo` on `main`, and the
archive entry `repo-main/docs/api/index.md`. The entry is not below `repo-main/src/lib`, yet it
has more than three segments, so the loop writes it to `ghdir_7/index.md`, and the
directory `lib` the run materializes holds `index.md` with the bytes of
`docs/api/index.md`. -/
theorem extraction_keeps_outside_entry :
    extractStrip "repo".toList "main".toList "src/lib".toList = 3 ∧
    (stringsSplit "repo-main/docs/api/index.md".toList).take 3 ≠
      ["repo-main".toList, "src".toList, "lib".toList] ∧
    entryTarget "./ghdir_7".toList 3 "repo-main/docs/api/index.md".toList =
      some "ghdir_7/index.md".toList ∧
    (run sampleWorld [] "/owner/repo/tree/main/src/lib".toList).outcome =
      Outcome.done Strategy.FullDownload 4 ∧
    lookupPath ["lib".toList, "index.md".toList]
      (run sampleWorld [] "/owner/repo/tree/main/src/lib".toList).fs =
      some (Tree.file 420 "DOC".toList) := by
  refine ⟨by decide, by decide, by decide, by decide, by rfl⟩

/-- C10, evaluated at the failing input: with the staging directory `./ghdir_7` and strip depth 2
the entry `repo-main/src/../../evil.sh` gets the output path `../evil.sh`, which is neither the
destination root nor below it; the loop of `main.go` asks for `..` to be created and
opens `../evil.sh` for writing. The same holds with the root `.` at depth 1, and in
`cmd/root.go`. -/
theorem extraction_escapes_root :
    entryTarget "./ghdir_7".toList 2 "repo-main/src/../../evil.sh".toList =
      some "../evil.sh".toList ∧
    withinRoot "./ghdir_7".toList "../evil.sh".toList = false ∧
    (match extractEntry "./ghdir_7".toList 2 ⟨"repo-main/src/../../evil.sh".toList, false, 493⟩
        "x".toList ⟨[("ghdir_7".toList, Tree.dir [])], 0, []⟩ with
      | Except.ok s => s.calls
      | Except.error s => s.calls) =
      [FsCall.mkdirAll "..".toList, FsCall.openFile "../evil.sh".toList 493] ∧
    entryTarget ".".toList 1 "repo-main/../evil.sh".toList = some "../evil.sh".toList ∧
    withinRoot ".".toList "../evil.sh".toList = false ∧
    Cmd.calculateStrip "repo".toList "main".toList [] = 0 ∧
    (Cmd.extractEntry 0 ⟨"../evil.sh".toList, false, 493⟩ "x".toList ⟨[], 0, []⟩).calls =
      [FsCall.mkdirAll "..".toList, FsCall.openFile "../evil.sh".toList 420] ∧
    withinRoot ".".toList "ghdir_7/a.go".toList = true ∧
    withinRoot "./ghdir_7".toList "ghdir_7/a.go".toList = true := by
  refine ⟨by decide, by decide, by decide, by decide, by decide, by decide, by decide, by decide,
    by decide⟩

/-! ## Facts about names -/

theorem resolve_name (n : Str) (h : ordinary n) : resolve n = some [n] := by
  have := resolve_ordinary [n] (by simp) (by simpa using h)
  simpa [stringsJoin] using this

theorem resolve_plain (n : Str) (hs : '/' ∉ n) (hr : ∃ segs, resolve n = some segs) :
    n = ['.'] ∨ n = ['.', '.'] ∨ ordinary n := by
  by_cases h1 : n = []
  · subst h1
    obtain ⟨segs, hsegs⟩ := hr
    simp [resolve] at hsegs
  · by_cases h2 : n = ['.']
    · exact Or.inl h2
    · by_cases h3 : n = ['.', '.']
      · exact Or.inr (Or.inl h3)
      · exact Or.inr (Or.inr ⟨h1, hs, h2, h3⟩)

theorem getLastFolder_no_slash (folder : Str) : '/' ∉ getLastFolder folder := by
  unfold getLastFolder
  split
  · simp
  · cases h : (stringsSplit folder).getLast? with
    | none => simp
    | some x =>
      simp only [Option.getD_some]
      exact stringsSplit_no_slash folder x (List.mem_of_getLast?_eq_some h)

theorem oldDirName_ordinary (target : Str) (now : Nat) (hs : '/' ∉ target) :
    ordinary (oldDirName target now) := by
  have hlen : 5 ≤ (oldDirName target now).length := by
    simp [oldDirName]
    omega
  refine ⟨?_, ?_, ?_, ?_⟩
  · intro h
    rw [h] at hlen
    simp at hlen
  · intro h
    simp [oldDirName] at h
    rcases h with h | h
    · exact hs h
    · exact (toDigits_plain now '/' h).1 rfl
  · intro h
    rw [h] at hlen
    simp at hlen
  · intro h
    rw [h] at hlen
    simp at hlen

theorem oldDirName_ne (target : Str) (now : Nat) : target ≠ oldDirName target now := by
  intro h
  have := congrArg List.length h
  simp [oldDirName] at this

theorem tempName_ne_oldDirName (rnd : Nat) (target : Str) (now : Nat) :
    tempName rnd ≠ oldDirName target now := by
  intro h
  have h1 : '.' ∈ oldDirName target now := by simp [oldDirName]
  rw [← h] at h1
  simp [tempName] at h1
  exact (toDigits_plain rnd '.' h1).2 rfl

theorem resolve_tempDir (rnd : Nat) : resolve ("./".toList ++ tempName rnd) = some [tempName rnd] := by
  rw [tempDir_eq]
  exact resolve_dot_ordinary [tempName rnd] (by simpa using tempName_ordinary rnd)

/-! ## Facts about the swap -/

theorem osRename_resolved (b : Bool) (fs : Dir) (src dst : Str) (s t : List Str)
    (hs : resolve src = some s) (ht : resolve dst = some t) :
    osRename b fs src dst = if b then renamePath s t fs else none := by
  unfold osRename
  simp [hs, ht]

theorem osRemoveAll_resolved (b : Bool) (fs : Dir) (p : Str) (n : Str) (q : List Str)
    (hp : resolve p = some (n :: q)) :
    osRemoveAll b fs p = if b then (removePath (n :: q) fs, true) else (fs, false) := by
  have hne : p ≠ [] := by
    intro e
    rw [e] at hp
    simp [resolve] at hp
  unfold osRemoveAll
  rw [if_neg hne]
  simp [hp]

/-- Past the first rename: the target is an ordinary name, it has been moved to the backup
name, and the swap continues from there. -/
theorem swapInto_aside (ok : OsOk) (fs : Dir) (srcDir stageDir target : Str) (now : Nat)
    (hstat : osStat fs target = true) (hs : '/' ∉ target)
    (hres : (swapInto ok fs srcDir stageDir target now).1 ≠ SwapResult.renameOldFailed) :
    ordinary target ∧ ∃ node, fs.child target = some node ∧
      (fs.child (oldDirName target now) = none ∨
        (node.isDir = false ∧ ∃ m x, fs.child (oldDirName target now) = some (Tree.file m x))) ∧
      swapInto ok fs srcDir stageDir target now =
        (match osRename ok.renameNew ((fs.unset target).set (oldDirName target now) node)
            srcDir target with
          | none =>
            (SwapResult.atomicRenameFailed,
              (osRemoveAll ok.removeStage
                ((osRename ok.restore ((fs.unset target).set (oldDirName target now) node)
                  (oldDirName target now) target).getD
                  ((fs.unset target).set (oldDirName target now) node)) stageDir).1)
          | some fs2 =>
            (SwapResult.done, (osRemoveAll ok.removeOld fs2 (oldDirName target now)).1)) := by
  have hold := oldDirName_ordinary target now hs
  have hro := resolve_name _ hold
  have hsome : ∃ segs, resolve target = some segs := by
    unfold osStat at hstat
    cases hr : resolve target with
    | none => simp [hr] at hstat
    | some segs => exact ⟨segs, rfl⟩
  rcases resolve_plain target hs hsome with hdot | hdd | hord
  · exfalso
    apply hres
    subst hdot
    have hrd : resolve ['.'] = some [] := by decide
    unfold swapInto
    simp only [hstat, if_true]
    rw [osRename_resolved _ _ _ _ _ _ hrd hro]
    have : renamePath [] [oldDirName ['.'] now] fs = none := by simp [renamePath]
    simp [this]
  · exfalso
    apply hres
    subst hdd
    have hrd : resolve ['.', '.'] = some [['.', '.']] := by decide
    unfold swapInto
    simp only [hstat, if_true]
    rw [osRename_resolved _ _ _ _ _ _ hrd hro]
    have : renamePath [['.', '.']] [oldDirName ['.', '.'] now] fs = none := by
      simp [renamePath]
    simp [this]
  · refine ⟨hord, ?_⟩
    have hrt := resolve_name _ hord
    have hstep : osRename ok.renameOld fs target (oldDirName target now) =
        if ok.renameOld then renamePath [target] [oldDirName target now] fs else none :=
      osRename_resolved _ _ _ _ _ _ hrt hro
    cases hrn : osRename ok.renameOld fs target (oldDirName target now) with
    | none =>
      exfalso
      apply hres
      unfold swapInto
      simp [hstat, hrn]
    | some fs1 =>
      rw [hrn] at hstep
      have hrp : renamePath [target] [oldDirName target now] fs = some fs1 := by
        by_cases hb : ok.renameOld = true
        · simpa [hb] using hstep.symm
        · simp [hb] at hstep
      obtain ⟨_, node, hnode, hfs1, hfree⟩ := renamePath_single _ _ _ _ hold.2.2.2 hrp
      refine ⟨node, hnode, hfree, ?_⟩
      subst hfs1
      unfold swapInto
      simp only [hstat, if_true, hrn, Option.map_some']
      have hne : oldDirName target now ≠ [] := hold.1
      simp only [hne, ne_eq, not_false_eq_true, if_true]

/-- The swap succeeded: the target holds what was staged, the backup is gone. -/
theorem swapInto_done (ok : OsOk) (fs : Dir) (srcDir stageDir target : Str) (now : Nat)
    (stage : Str) (p : List Str) (staged : Tree)
    (hsrc : resolve srcDir = some (stage :: p))
    (hstaged : lookupPath (stage :: p) fs = some staged)
    (hso : stage ≠ oldDirName target now)
    (hstat : osStat fs target = true) (hs : '/' ∉ target)
    (hdone : (swapInto ok fs srcDir stageDir target now).1 = SwapResult.done)
    (hrm : ok.removeOld = true) :
    target ≠ stage ∧
    (swapInto ok fs srcDir stageDir target now).2.child target = some staged ∧
    (swapInto ok fs srcDir stageDir target now).2.child (oldDirName target now) = none ∧
    (p = [] → (swapInto ok fs srcDir stageDir target now).2.child stage = none) := by
  obtain ⟨hord, node, hnode, _, heq⟩ :=
    swapInto_aside ok fs srcDir stageDir target now hstat hs (by rw [hdone]; simp)
  have hold := oldDirName_ordinary target now hs
  have hto := oldDirName_ne target now
  rw [heq] at hdone ⊢
  have hrt := resolve_name _ hord
  have hro := resolve_name _ hold
  rw [osRename_resolved _ _ _ _ _ _ hsrc hrt] at hdone ⊢
  cases hrn : (if ok.renameNew = true then
      renamePath (stage :: p) [target] ((fs.unset target).set (oldDirName target now) node)
      else none) with
  | none => simp [hrn] at hdone
  | some fs2 =>
    simp only [hrn]
    have hrp : renamePath (stage :: p) [target]
        ((fs.unset target).set (oldDirName target now) node) = some fs2 := by
      by_cases hb : ok.renameNew = true
      · simpa [hb] using hrn
      · simp [hb] at hrn
    obtain ⟨node2, hlook, hfs2⟩ := renamePath_into _ _ _ _ _ hrp
    have hts : target ≠ stage := by
      intro e
      subst e
      obtain ⟨c, hc⟩ := lookupPath_child_some _ _ _ _ hord.2.2.2 hlook
      rw [child_set_ne _ _ _ _ hto, child_unset_same] at hc
      exact absurd hc (by simp)
    have hchild : ((fs.unset target).set (oldDirName target now) node).child stage =
        fs.child stage := by
      rw [child_set_ne _ _ _ _ hso, child_unset_ne _ _ _ (fun e => hts e.symm)]
    have hn2 : node2 = staged := by
      rw [lookupPath_congr _ _ _ _ hchild, hstaged] at hlook
      simpa using hlook.symm
    subst hn2
    rw [osRemoveAll_resolved _ _ _ _ _ hro]
    simp only [hrm, if_true, removePath]
    subst hfs2
    refine ⟨hts, ?_, ?_, ?_⟩
    · rw [child_unset_ne _ _ _ hto, child_set_same]
    · exact child_unset_same _ _
    · intro hp
      subst hp
      rw [child_unset_ne _ _ _ hso, child_set_ne _ _ _ _ (fun e => hts e.symm),
        child_removePath_single]

/-- The swap failed at the second rename and the restore and the removal of the staging
directory succeeded: the state is the one before the call, without the staging
directory (and without anything under the backup name). -/
theorem swapInto_rollback (ok : OsOk) (fs : Dir) (srcDir stageDir target : Str) (now : Nat)
    (stage : Str)
    (hstg : resolve stageDir = some [stage])
    (hso : stage ≠ oldDirName target now) (hts : target ≠ stage)
    (hstat : osStat fs target = true) (hs : '/' ∉ target)
    (hfail : (swapInto ok fs srcDir stageDir target now).1 = SwapResult.atomicRenameFailed)
    (hrestore : ok.restore = true) (hrm : ok.removeStage = true) :
    (∀ n, (swapInto ok fs srcDir stageDir target now).2.child n =
      if n = stage ∨ n = oldDirName target now then none else fs.child n) ∧
    ((fs.child target).map Tree.isDir = some true → fs.child (oldDirName target now) = none) := by
  obtain ⟨hord, node, hnode, hfree, heq⟩ :=
    swapInto_aside ok fs srcDir stageDir target now hstat hs (by rw [hfail]; simp)
  have hold := oldDirName_ordinary target now hs
  have hto := oldDirName_ne target now
  have hrt := resolve_name _ hord
  have hro := resolve_name _ hold
  refine ⟨?_, ?_⟩
  · rw [heq] at hfail ⊢
    cases hrn : osRename ok.renameNew ((fs.unset target).set (oldDirName target now) node)
        srcDir target with
    | some fs2 => simp [hrn] at hfail
    | none =>
      simp only [hrn]
      rw [osRename_resolved _ _ _ _ _ _ hro hrt, osRemoveAll_resolved _ _ _ _ _ hstg]
      simp only [hrestore, hrm, if_true]
      have hback : renamePath [oldDirName target now] [target]
          ((fs.unset target).set (oldDirName target now) node) =
          some ((((fs.unset target).set (oldDirName target now) node).unset
            (oldDirName target now)).set target node) := by
        apply renamePath_single_ok _ _ _ _ (fun e => hto e.symm) hold.2.2.2 hord.2.2.2
        · exact child_set_same _ _ _
        · rw [child_set_ne _ _ _ _ hto, child_unset_same]
      rw [hback]
      simp only [Option.getD_some, removePath, if_true]
      intro n
      by_cases h1 : n = stage
      · subst h1
        simp [child_unset_same]
      · rw [child_unset_ne _ _ _ h1]
        by_cases h2 : n = target
        · subst h2
          rw [child_set_same]
          simp [h1, hto, hnode]
        · rw [child_set_ne _ _ _ _ h2]
          by_cases h3 : n = oldDirName target now
          · subst h3
            simp [child_unset_same]
          · rw [child_unset_ne _ _ _ h3, child_set_ne _ _ _ _ h3, child_unset_ne _ _ _ h2]
            simp [h1, h3]
  · intro hdir
    rcases hfree with h | ⟨hnd, _⟩
    · exact h
    · rw [hnode] at hdir
      simp [hnd] at hdir

theorem materializeSparse_fst (ok : OsOk) (fs : Dir) (tempDir folder : Str) (now : Nat) :
    (materializeSparse ok fs tempDir folder now).1 =
      (swapInto ok fs (filepathJoin [tempDir, folder]) tempDir (getLastFolder folder) now).1 := by
  unfold materializeSparse
  split
  · rename_i fs3 h
    rw [h]
  · rename_i r fs3 _ h
    rw [h]

theorem materializeSparse_failed (ok : OsOk) (fs : Dir) (tempDir folder : Str) (now : Nat)
    (h : (materializeSparse ok fs tempDir folder now).1 = SwapResult.atomicRenameFailed) :
    materializeSparse ok fs tempDir folder now =
      swapInto ok fs (filepathJoin [tempDir, folder]) tempDir (getLastFolder folder) now := by
  rw [materializeSparse_fst] at h
  unfold materializeSparse
  split
  · rename_i fs3 heq
    rw [heq] at h
    exact absurd h (by simp)
  · rename_i r fs3 _ heq
    rw [heq]

theorem materializeSparse_done (ok : OsOk) (fs : Dir) (tempDir folder : Str) (now : Nat)
    (h : (materializeSparse ok fs tempDir folder now).1 = SwapResult.done) :
    (materializeSparse ok fs tempDir folder now).2 =
      (osRemoveAll ok.removeStage
        (swapInto ok fs (filepathJoin [tempDir, folder]) tempDir (getLastFolder folder) now).2
        tempDir).1 := by
  rw [materializeSparse_fst] at h
  unfold materializeSparse
  split
  · rename_i fs3 heq
    rw [heq]
  · rename_i r fs3 hr heq
    rw [heq] at h
    exact absurd h hr

/-- C8, as amended. The target name exists before the call, the swap ends without an error, and
the removal of the backup succeeds (on the sparse path also the removal of the
temporary clone, in which the checked-out subfolder lies): afterwards the target
name holds exactly what was staged, nothing is left under the backup name, and
the staging name is gone. Both paths of `main.go`. -/
theorem swap_success (ok : OsOk) (fs : Dir) (rnd now : Nat) (folder : Str)
    (htarget : osStat fs (getLastFolder folder) = true)
    (hrm : ok.removeOld = true) :
    (∀ staged, fs.child (tempName rnd) = some staged →
      (materialize ok fs ("./".toList ++ tempName rnd) (getLastFolder folder) now).1 =
        SwapResult.done →
      (materialize ok fs ("./".toList ++ tempName rnd) (getLastFolder folder) now).2.child
          (getLastFolder folder) = some staged ∧
        (materialize ok fs ("./".toList ++ tempName rnd) (getLastFolder folder) now).2.child
          (oldDirName (getLastFolder folder) now) = none ∧
        (materialize ok fs ("./".toList ++ tempName rnd) (getLastFolder folder) now).2.child
          (tempName rnd) = none) ∧
    (∀ p staged,
      resolve (filepathJoin ["./".toList ++ tempName rnd, folder]) = some (tempName rnd :: p) →
      lookupPath (tempName rnd :: p) fs = some staged →
      ok.removeStage = true →
      (materializeSparse ok fs ("./".toList ++ tempName rnd) folder now).1 = SwapResult.done →
      (materializeSparse ok fs ("./".toList ++ tempName rnd) folder now).2.child
          (getLastFolder folder) = some staged ∧
        (materializeSparse ok fs ("./".toList ++ tempName rnd) folder now).2.child
          (oldDirName (getLastFolder folder) now) = none ∧
        (materializeSparse ok fs ("./".toList ++ tempName rnd) folder now).2.child
          (tempName rnd) = none) := by
  have hs := getLastFolder_no_slash folder
  have hso := tempName_ne_oldDirName rnd (getLastFolder folder) now
  have hrs := resolve_tempDir rnd
  refine ⟨?_, ?_⟩
  · intro staged hstaged hdone
    unfold materialize at hdone ⊢
    have hl : lookupPath [tempName rnd] fs = some staged := by
      rw [lookupPath_single _ _ (tempName_ordinary rnd).2.2.2]
      exact hstaged
    obtain ⟨_, h1, h2, h3⟩ :=
      swapInto_done ok fs _ _ _ now (tempName rnd) [] staged hrs hl hso htarget hs hdone hrm
    exact ⟨h1, h2, h3 rfl⟩
  · intro p staged hsrc hstaged hrs2 hdone
    have hdone2 := hdone
    rw [materializeSparse_fst] at hdone2
    obtain ⟨hts, h1, h2, _⟩ :=
      swapInto_done ok fs _ ("./".toList ++ tempName rnd) _ now (tempName rnd) p staged hsrc
        hstaged hso htarget hs hdone2 hrm
    rw [materializeSparse_done _ _ _ _ _ hdone, osRemoveAll_resolved _ _ _ _ _ hrs]
    simp only [hrs2, if_true, removePath]
    refine ⟨?_, ?_, child_unset_same _ _⟩
    · rw [child_unset_ne _ _ _ hts]
      exact h1
    · rw [child_unset_ne _ _ _ (fun e => hso e.symm)]
      exact h2

/-- C7, as amended. The target name exists before the call and is not the staging directory; the
rename of the staged directory into the target name fails, and the restoring
rename and the removal of the staging directory succeed: afterwards every name
holds what it held before the call, except that the staging directory is removed
and nothing is left under the backup name (which was free before the call when the
target is a directory). Both paths of `main.go`. -/
theorem swap_rollback (ok : OsOk) (fs : Dir) (rnd now : Nat) (folder : Str)
    (htarget : osStat fs (getLastFolder folder) = true)
    (hne : getLastFolder folder ≠ tempName rnd)
    (hrestore : ok.restore = true) (hrm : ok.removeStage = true) :
    ((materialize ok fs ("./".toList ++ tempName rnd) (getLastFolder folder) now).1 =
        SwapResult.atomicRenameFailed →
      (∀ n, (materialize ok fs ("./".toList ++ tempName rnd) (getLastFolder folder) now).2.child n =
        if n = tempName rnd ∨ n = oldDirName (getLastFolder folder) now then none
        else fs.child n) ∧
      (materialize ok fs ("./".toList ++ tempName rnd) (getLastFolder folder) now).2.child
        (getLastFolder folder) = fs.child (getLastFolder folder) ∧
      ((fs.child (getLastFolder folder)).map Tree.isDir = some true →
        fs.child (oldDirName (getLastFolder folder) now) = none)) ∧
    ((materializeSparse ok fs ("./".toList ++ tempName rnd) folder now).1 =
        SwapResult.atomicRenameFailed →
      (∀ n, (materializeSparse ok fs ("./".toList ++ tempName rnd) folder now).2.child n =
        if n = tempName rnd ∨ n = oldDirName (getLastFolder folder) now then none
        else fs.child n) ∧
      (materializeSparse ok fs ("./".toList ++ tempName rnd) folder now).2.child
        (getLastFolder folder) = fs.child (getLastFolder folder) ∧
      ((fs.child (getLastFolder folder)).map Tree.isDir = some true →
        fs.child (oldDirName (getLastFolder folder) now) = none)) := by
  have hs := getLastFolder_no_slash folder
  have hso := tempName_ne_oldDirName rnd (getLastFolder folder) now
  have hrs := resolve_tempDir rnd
  have hto := oldDirName_ne (getLastFolder folder) now
  refine ⟨?_, ?_⟩
  · intro hfail
    unfold materialize at hfail ⊢
    obtain ⟨h1, h2⟩ := swapInto_rollback ok fs _ _ _ now (tempName rnd) hrs hso hne htarget hs
      hfail hrestore hrm
    refine ⟨h1, ?_, h2⟩
    rw [h1]
    simp [hne, hto]
  · intro hfail
    have heq := materializeSparse_failed _ _ _ _ _ hfail
    rw [heq] at hfail ⊢
    obtain ⟨h1, h2⟩ := swapInto_rollback ok fs _ _ _ now (tempName rnd) hrs hso hne htarget hs
      hfail hrestore hrm
    refine ⟨h1, ?_, h2⟩
    rw [h1]
    simp [hne, hto]

/-- Witness of the amended C8: `lib` replaced by the staged directory on the full-archive path
and on the sparse path. -/
theorem swap_success_witness :
    ((materialize OsOk.all sampleDir ("./".toList ++ tempName 7)
        (getLastFolder "src/lib".toList) 1730000000).2.child (getLastFolder "src/lib".toList) =
        some (Tree.dir [("a.go".toList, Tree.file 420 "A".toList)]) ∧
      (materialize OsOk.all sampleDir ("./".toList ++ tempName 7)
        (getLastFolder "src/lib".toList) 1730000000).2.child
        (oldDirName (getLastFolder "src/lib".toList) 1730000000) = none ∧
      (materialize OsOk.all sampleDir ("./".toList ++ tempName 7)
        (getLastFolder "src/lib".toList) 1730000000).2.child (tempName 7) = none) ∧
    ((materializeSparse OsOk.all sampleClone ("./".toList ++ tempName 7) "src/lib".toList
        1730000000).2.child (getLastFolder "src/lib".toList) =
        some (Tree.dir [("a.go".toList, Tree.file 420 "A".toList)]) ∧
      (materializeSparse OsOk.all sampleClone ("./".toList ++ tempName 7) "src/lib".toList
        1730000000).2.child (oldDirName (getLastFolder "src/lib".toList) 1730000000) = none ∧
      (materializeSparse OsOk.all sampleClone ("./".toList ++ tempName 7) "src/lib".toList
        1730000000).2.child (tempName 7) = none) :=
  ⟨(swap_success OsOk.all sampleDir 7 1730000000 "src/lib".toList (by decide) rfl).1
      (Tree.dir [("a.go".toList, Tree.file 420 "A".toList)]) rfl (by decide),
    (swap_success OsOk.all sampleClone 7 1730000000 "src/lib".toList (by decide) rfl).2
      ["src".toList, "lib".toList] (Tree.dir [("a.go".toList, Tree.file 420 "A".toList)])
      (by decide) rfl rfl (by decide)⟩

/-- Counterexample to C8 as stated: the swap ends without an error while the removal of the
backup has failed; the backup `lib.old.1730000000` is still there. On the sparse path the
same happens to the temporary clone `ghdir_7` when its removal fails. -/
theorem swap_success_backup_remains :
    osStat sampleDir "lib".toList = true ∧
    (materialize OsOk.cleanupRefused sampleDir "./ghdir_7".toList "lib".toList 1730000000).1 =
      SwapResult.done ∧
    ((materialize OsOk.cleanupRefused sampleDir "./ghdir_7".toList "lib".toList 1730000000).2.child
      "lib.old.1730000000".toList).isSome = true ∧
    (materializeSparse OsOk.cloneKept sampleClone "./ghdir_7".toList "src/lib".toList
      1730000000).1 = SwapResult.done ∧
    ((materializeSparse OsOk.cloneKept sampleClone "./ghdir_7".toList "src/lib".toList
      1730000000).2.child "ghdir_7".toList).isSome = true := by
  refine ⟨by decide, by decide, by decide, by decide, by decide⟩

/-- Witness of the amended C7: the rename into `lib` is refused, `lib` is restored and the
staging directory removed, on both paths. -/
theorem swap_rollback_witness :
    (materialize OsOk.swapRefused sampleDir ("./".toList ++ tempName 7)
        (getLastFolder "src/lib".toList) 1730000000).2.child (getLastFolder "src/lib".toList) =
      sampleDir.child (getLastFolder "src/lib".toList) ∧
    (materializeSparse OsOk.swapRefused sampleClone ("./".toList ++ tempName 7) "src/lib".toList
        1730000000).2.child (getLastFolder "src/lib".toList) =
      sampleClone.child (getLastFolder "src/lib".toList) :=
  ⟨((swap_rollback OsOk.swapRefused sampleDir 7 1730000000 "src/lib".toList (by decide)
      (by decide) rfl rfl).1 (by decide)).2.1,
    ((swap_rollback OsOk.swapRefused sampleClone 7 1730000000 "src/lib".toList (by decide)
      (by decide) rfl rfl).2 (by decide)).2.1⟩

/-- Counterexample to C7 as stated: the rename into the target fails and so does the restoring
rename, whose error `main.go` ignores; afterwards the name `lib` holds nothing and the
backup `lib.old.1730000000` remains. When instead the removal of the staging directory
fails, `ghdir_7` remains. -/
theorem swap_rollback_restore_fails :
    osStat sampleDir "lib".toList = true ∧
    (materialize OsOk.restoreRefused sampleDir "./ghdir_7".toList "lib".toList 1730000000).1 =
      SwapResult.atomicRenameFailed ∧
    ((materialize OsOk.restoreRefused sampleDir "./ghdir_7".toList "lib".toList 1730000000).2.child
      "lib".toList).isNone = true ∧
    ((materialize OsOk.restoreRefused sampleDir "./ghdir_7".toList "lib".toList 1730000000).2.child
      "lib.old.1730000000".toList).isSome = true ∧
    (materialize OsOk.stageKept sampleDir "./ghdir_7".toList "lib".toList 1730000000).1 =
      SwapResult.atomicRenameFailed ∧
    ((materialize OsOk.stageKept sampleDir "./ghdir_7".toList "lib".toList 1730000000).2.child
      "ghdir_7".toList).isSome = true := by
  refine ⟨by decide, by decide, by decide, by decide, by decide, by decide⟩

/-! ## Facts about the run -/

theorem selectStrategy_error (status : Nat) (folder : Str) (len : Int) (o : Outcome)
    (h : selectStrategy status folder len = Except.error o) :
    o = Outcome.unchanged ∨ o = Outcome.remoteUnavailable := by
  unfold selectStrategy at h
  split at h
  · simp at h
    exact Or.inl h.symm
  · split at h
    · simp at h
      exact Or.inr h.symm
    · split at h <;> simp at h

theorem fullDownload_error (w : World) (fs fs1 : Dir) (t : FetchTarget) (o : Outcome)
    (h : fullDownload w fs t = Except.error (o, fs1)) :
    ∀ s c, o ≠ Outcome.done s c := by
  intro s c hc
  subst hc
  unfold fullDownload at h
  split at h
  · simp at h
  · simp at h
  · split at h
    · simp at h
    · split at h
      · simp at h
      · split at h
        · simp at h
        · simp only at h
          split at h
          · simp at h
          · split at h
            · simp at h
            · split at h
              · split at h
                · simp at h
                · simp at h
              · simp at h

theorem fullDownload_ok (w : World) (fs fs1 : Dir) (t : FetchTarget) (etag : Str) (count : Nat)
    (h : fullDownload w fs t = Except.ok (etag, count, fs1)) :
    ∃ resp, w.get = HttpResult.response resp ∧ resp.StatusCode = 200 ∧ etag = resp.ETag := by
  unfold fullDownload at h
  split at h
  · simp at h
  · simp at h
  · rename_i resp hget
    refine ⟨resp, hget, ?_⟩
    split at h
    · simp at h
    · rename_i h304
      split at h
      · simp at h
      · rename_i h200
        refine ⟨by simpa using h200, ?_⟩
        split at h
        · simp at h
        · simp only at h
          split at h
          · simp at h
          · split at h
            · simp at h
            · split at h
              · split at h
                · simp at h
                  exact h.1.symm
                · simp at h
              · simp at h
                exact h.1.symm

/-- C9, as amended. A run that completes a fetch and returns: by FullDownload with a non-empty
ETag in the response to the GET request, the cache loaded at the start is a map, and
the mapping handed to `saveCache` maps the key `owner/repository/branch/subfolder` to
that ETag and agrees with the loaded cache everywhere else; by FullDownload
without an ETag, or by SparseCheckout, `saveCache` is not called. -/
theorem cache_update (w : World) (fs : Dir) (path : Str) (strategy : Strategy) (count : Nat)
    (hdone : (run w fs path).outcome = Outcome.done strategy count) :
    ∃ t, parseGitHubURL path = some t ∧
      cacheKey t = t.user ++ "/".toList ++ t.repo ++ "/".toList ++ t.branch ++ "/".toList
        ++ t.folder ∧
      (strategy = Strategy.SparseCheckout → (run w fs path).saved = none) ∧
      (strategy = Strategy.FullDownload →
        ∃ resp, w.get = HttpResult.response resp ∧ resp.StatusCode = 200 ∧
          (resp.ETag = [] → (run w fs path).saved = none) ∧
          (resp.ETag ≠ [] → ∃ loaded c, w.cache = some loaded ∧
            (run w fs path).saved = some c ∧
            c (cacheKey t) = some resp.ETag ∧ ∀ k, k ≠ cacheKey t → c k = loaded k)) := by
  cases hp : parseGitHubURL path with
  | none => simp [run, hp] at hdone
  | some t =>
    refine ⟨t, rfl, by simp [cacheKey], ?_⟩
    cases hh : w.head with
    | requestError => simp [run, hp, hh] at hdone
    | transportError => simp [run, hp, hh] at hdone
    | response resp =>
      cases hsel : selectStrategy resp.StatusCode t.folder resp.ContentLength with
      | error o =>
        simp only [run, hp, hh, hsel] at hdone
        rcases selectStrategy_error _ _ _ _ hsel with rfl | rfl <;> simp at hdone
      | ok strat =>
        by_cases hdecl : resp.ContentLength > largeThreshold ∧ confirms w.answer = false
        · simp only [run, hp, hh, hsel, hdecl] at hdone
          simp at hdone
        · cases strat with
          | SparseCheckout =>
            cases hsp : downloadWithSparse w fs t.folder with
            | mk b fs1 =>
              cases b with
              | false =>
                simp only [run, hp, hh, hsel, hdecl, hsp] at hdone
                simp at hdone
              | true =>
                simp only [run, hp, hh, hsel, hdecl, hsp] at hdone ⊢
                simp at hdone
                refine ⟨fun _ => by simp, ?_⟩
                intro hs
                rw [hs] at hdone
                exact absurd hdone.1 (by simp)
          | FullDownload =>
            cases hfd : fullDownload w fs t with
            | error e =>
              obtain ⟨o, fs1⟩ := e
              simp only [run, hp, hh, hsel, hdecl, hfd] at hdone
              simp at hdone
              exact absurd hdone (fullDownload_error _ _ _ _ _ hfd _ _)
            | ok r =>
              obtain ⟨etag, cnt, fs1⟩ := r
              obtain ⟨gresp, hget, h200, hetag⟩ := fullDownload_ok _ _ _ _ _ _ hfd
              subst hetag
              by_cases he : gresp.ETag = []
              · have hrun : run w fs path =
                    ⟨Outcome.done Strategy.FullDownload cnt, fs1, none⟩ := by
                  simp [run, hp, hh, hsel, hdecl, hfd, he]
                rw [hrun] at hdone ⊢
                refine ⟨fun _ => rfl, ?_⟩
                intro _
                exact ⟨gresp, hget, h200, fun _ => rfl, fun hne => absurd he hne⟩
              · cases hc : w.cache with
                | none =>
                  have hrun : run w fs path = ⟨Outcome.cacheNil cnt, fs1, none⟩ := by
                    simp [run, hp, hh, hsel, hdecl, hfd, he, hc]
                  rw [hrun] at hdone
                  simp at hdone
                | some loaded =>
                  have hrun : run w fs path =
                      ⟨Outcome.done Strategy.FullDownload cnt, fs1,
                        some (loaded.set (cacheKey t) gresp.ETag)⟩ := by
                    simp [run, hp, hh, hsel, hdecl, hfd, he, hc]
                  rw [hrun] at hdone ⊢
                  refine ⟨?_, ?_⟩
                  · intro hs
                    rw [hs] at hdone
                    simp at hdone
                  · intro _
                    refine ⟨gresp, hget, h200, fun h0 => absurd h0 he, fun _ => ?_⟩
                    refine ⟨loaded, loaded.set (cacheKey t) gresp.ETag, rfl, rfl, ?_, ?_⟩
                    · simp [Cache.set]
                    · intro k hk
                      simp [Cache.set, hk]

/-- Witness of the amended C9: the sample run saves the ETag of the GET response under
`owner/repo/main/src/lib`. -/
theorem cache_update_witness :
    ∃ c, (run sampleWorld [] "/owner/repo/tree/main/src/lib".toList).saved = some c ∧
      c "owner/repo/main/src/lib".toList = some "W/abc".toList := by
  obtain ⟨t, ht, _, _, hfull⟩ :=
    cache_update sampleWorld [] "/owner/repo/tree/main/src/lib".toList Strategy.FullDownload 4
      (by decide)
  obtain ⟨resp, hget, _, _, hsome⟩ := hfull rfl
  have ht2 : parseGitHubURL "/owner/repo/tree/main/src/lib".toList =
      some ⟨"owner".toList, "repo".toList, "main".toList, "src/lib".toList⟩ := by decide
  rw [ht2] at ht
  have ht3 := Option.some.inj ht
  have hresp : resp = ⟨200, 1000, "W/abc".toList⟩ := (HttpResult.response.inj hget).symm
  subst hresp
  subst ht3
  obtain ⟨_, c, _, hc, hkey, _⟩ := hsome (by decide)
  exact ⟨c, hc, hkey⟩

/-- Counterexample to C9 as stated: a run by SparseCheckout completes its fetch and `saveCache` is
not called, so no entry is created for `owner/repo/main/src/lib`. -/
theorem cache_update_sparse_saves_nothing :
    (run sparseWorld [("lib".toList, Tree.dir [])] "/owner/repo/tree/main/src/lib".toList).outcome =
      Outcome.done Strategy.SparseCheckout 1 ∧
    (run sparseWorld [("lib".toList, Tree.dir [])]
      "/owner/repo/tree/main/src/lib".toList).saved.isNone = true := by
  refine ⟨by decide, by decide⟩

/-- The nil map: `cache.json` holds `null`, `loadCache` returns a nil map, and after a completed
fetch `cache[key] = newETag` panics; `saveCache` is not reached. -/
theorem cache_update_nil_map :
    (run ⟨none, HttpResult.response ⟨200, 1000, []⟩, [],
        HttpResult.response ⟨200, 1000, "W/abc".toList⟩, true, sampleArchive, 7, 1730000000, none,
        OsOk.all⟩ [] "/owner/repo/tree/main/src/lib".toList).outcome = Outcome.cacheNil 4 ∧
    (run ⟨none, HttpResult.response ⟨200, 1000, []⟩, [],
        HttpResult.response ⟨200, 1000, "W/abc".toList⟩, true, sampleArchive, 7, 1730000000, none,
        OsOk.all⟩ [] "/owner/repo/tree/main/src/lib".toList).saved.isNone = true := by
  refine ⟨by decide, by decide⟩

/-- An entry that leaves the destination root is written where its path leads: the run on an
archive holding `repo-main/src/../../evil.sh` completes, and the file is in the parent of the
working directory. -/
theorem extraction_outside_is_written :
    (run ⟨some (fun _ => none), HttpResult.response ⟨200, 1000, []⟩, [],
        HttpResult.response ⟨200, 1000, "W/abc".toList⟩, true,
        [TarItem.entry ⟨"repo-main/src/../../evil.sh".toList, false, 493⟩ "x".toList],
        7, 1730000000, none, OsOk.all⟩ [] "/owner/repo/tree/main/src".toList).outcome =
      Outcome.done Strategy.FullDownload 1 ∧
    lookupPath ["..".toList, "evil.sh".toList]
      (run ⟨some (fun _ => none), HttpResult.response ⟨200, 1000, []⟩, [],
        HttpResult.response ⟨200, 1000, "W/abc".toList⟩, true,
        [TarItem.entry ⟨"repo-main/src/../../evil.sh".toList, false, 493⟩ "x".toList],
        7, 1730000000, none, OsOk.all⟩ [] "/owner/repo/tree/main/src".toList).fs =
      some (Tree.file 493 "x".toList) := by
  refine ⟨by decide, by rfl⟩

end Getit
